import Mathlib

/-!
Verification of the block-management engine of `src/lab4.c`.

The engine keeps two ordered collections of memory blocks, `AVAILABLE_MEMORY`
(Free) and `ALLOCATED_MEMORY` (Allocated), realized in the source as doubly
linked queues of `node` records.  Four actors mutate them under one global
lock: an allocator, a garbage collector (which also coalesces), an aging
clock, and a read-only traverser.

The embedding below models a queue as the ordered list of its member nodes
(head first).  The source's pointer surgery on a well-formed chain is
modelled by the corresponding list operation.  Each actor's loop body is
modelled as one "tick" function on the shared state; quiescent states are
the states between complete lock-protected tick executions, captured by the
`Step` relation and `Reachable` predicate.  C `int` fields are modelled as
`Int` (the simulation's magnitudes stay far below any overflow boundary).
The `merge_nodes` scan loop is modelled with explicit fuel: `none` stands
for a run that never completes (its body does not advance the cursor past a
full-sized interior node) or that re-enters the loop with a cursor pointing
at an already detached node (undefined behavior in the source); in either
case no quiescent state is produced by that collector tick.
-/

/-- One memory block, `struct _node` in the source: `ptid` is the node id,
`nBase` the base-register offset, `nStay` the residency age and `nBlocks`
the size in units.  The `next`/`prev` pointers are represented by the
position of the node in its queue's list. -/
structure Node where
  ptid : Int
  nBase : Int
  nStay : Int
  nBlocks : Int
deriving DecidableEq

/-- `NUM_NODES` from the source: initial number of nodes. -/
def NUM_NODES : Nat := 3

/-- `BLOCK_SIZE` from the source: uniform initial block size. -/
def BLOCK_SIZE : Int := 1024

/-- A doubly linked queue, modelled by the ordered list of its members
(head first, tail last). -/
abbrev Queue := List Node

/-- Total size held by a queue. -/
def sumSizes (q : Queue) : Int := (q.map Node.nBlocks).sum

/-- `init_node`: `nBase = i*BLOCK_SIZE - 1`, patched to `0` when it equals
`-1`; `nStay = 0`; `nBlocks = BLOCK_SIZE`. -/
def init_node (k : Nat) : Node :=
  { ptid := (k : Int)
  , nBase := if (k : Int) * BLOCK_SIZE - 1 = -1 then 0 else (k : Int) * BLOCK_SIZE - 1
  , nStay := 0
  , nBlocks := BLOCK_SIZE }

/-- `enqueue`: append at the tail. -/
def enqueue (q : Queue) (n : Node) : Queue := q ++ [n]

/-- `is_empty`. -/
def is_empty (q : Queue) : Bool := q.isEmpty

/-- The detach branches shared by `requeue` and `dequeue` in the source:
head case (`head = a->next`), tail case (`tail = a->prev`), and the interior
relink (`prev->next = next; next->prev = prev`).  There is no membership
check and no error path: on a node that is not a member, the interior branch
writes through the node's stale neighbor pointers and the given queue's own
chain is left as is (`List.erase` of a non-member). -/
def detach_node (source : Queue) (a : Node) : Queue :=
  if source.head? = some a then source.drop 1
  else if source.getLast? = some a then source.dropLast
  else source.erase a

/-- `dequeue`: detach the node and return it; no membership check, no error
path. -/
def dequeue (source : Queue) (a : Node) : Queue × Node :=
  (detach_node source a, a)

/-- `requeue`: detach from `source`, then unconditionally `enqueue` into
`target`; no membership check, no error path. -/
def requeue (target source : Queue) (a : Node) : Queue × Queue :=
  (enqueue target a, detach_node source a)

/-- `split_node`: the candidate's `nBlocks` is decremented first; the new
node gets `ptid = ++i` (modelled by the counter), `nBase` computed from the
ALREADY decremented `nBlocks` of the candidate, `nStay = 0` and
`nBlocks = blocks`.  Returns (shrunk candidate, new node, new counter). -/
def split_node (a : Node) (blocks : Int) (ctr : Int) : Node × Node × Int :=
  ({ a with nBlocks := a.nBlocks - blocks },
   { ptid := ctr + 1
   , nBase := (a.nBlocks - blocks) - blocks
   , nStay := 0
   , nBlocks := blocks },
   ctr + 1)

/-- The first-fit scan loop of `allocate`: `while (current != tail)` walks
the queue from the head but never examines the tail member.  On the first
node with `nBlocks > req` it either splits (when `nBlocks > 2*req`, the
shrunk candidate stays in place and the fresh node is handed out) or hands
the whole node out, and stops.  Returns the new Free list, the node that was
appended to Allocated (if any) and the new id counter. -/
def alloc_scan (ctr : Int) (req : Int) : Queue → Queue × Option Node × Int
  | [] => ([], none, ctr)
  | [t] => ([t], none, ctr)
  | c :: d :: rest =>
    if req < c.nBlocks then
      if 2 * req < c.nBlocks then
        match split_node c req ctr with
        | (c', newNode, ctr') => (c' :: d :: rest, some newNode, ctr')
      else
        (d :: rest, some c, ctr)
    else
      match alloc_scan ctr req (d :: rest) with
      | (q', n?, ctr') => (c :: q', n?, ctr')

/-- The scan loop of `merge_nodes`.  `hb` is the accumulated `nBlocks` of
the reservoir (the Free head), `rest` the nodes from the cursor position to
the tail inclusive.  Loop guard: `current != tail`, i.e. `rest` has at least
two members.  Body: absorb the cursor node when its size is below
`BLOCK_SIZE` (advance the cursor), then absorb the tail when its size is
below `BLOCK_SIZE` (retract the tail).  `none` models a body that makes no
progress (full-sized cursor node and full-sized tail: the loop never
terminates) or a cursor left dangling on a node that was just absorbed as
the tail (the source then re-enters the loop on a detached node: undefined
behavior). -/
def merge_loop : Nat → Int → Queue → Option (Int × Queue)
  | 0, _, _ => none
  | _ + 1, hb, [] => some (hb, [])
  | _ + 1, hb, [t] => some (hb, [t])
  | fuel + 1, hb, c :: d :: rest =>
    if c.nBlocks < BLOCK_SIZE then
      match (d :: rest).getLast? with
      | none => none
      | some t =>
        if t.nBlocks < BLOCK_SIZE then
          if (d :: rest).dropLast.isEmpty then none
          else merge_loop fuel ((hb + c.nBlocks) + t.nBlocks) (d :: rest).dropLast
        else merge_loop fuel (hb + c.nBlocks) (d :: rest)
    else
      match (c :: d :: rest).getLast? with
      | none => none
      | some t =>
        if t.nBlocks < BLOCK_SIZE then
          if (c :: d :: rest).dropLast.isEmpty then none
          else merge_loop fuel (hb + t.nBlocks) (c :: d :: rest).dropLast
        else merge_loop fuel hb (c :: d :: rest)

/-- `merge_nodes`: the cursor starts at `head->next` and the loop folds
undersized non-head members into the head (the reservoir).  An empty Free
queue would dereference a null head (`none`).  A singleton queue makes no
well-formed iteration (the guard compares the stale cursor with the head);
per the engine's design the run is a no-op then.  The fuel
`rest.length + 1` is exact: every productive iteration removes at least one
member, so a `none` result means the loop never exits. -/
def merge_nodes (free : Queue) : Option Queue :=
  match free with
  | [] => none
  | h :: rest =>
    (merge_loop (rest.length + 1) h.nBlocks rest).map
      (fun p => { h with nBlocks := p.1 } :: p.2)

/-- The shared mutable state: the two queues and the global id counter `i`
(which supplies fresh ids to `split_node`). -/
structure SimState where
  free : Queue
  alloc : Queue
  ctr : Int
deriving DecidableEq

/-- `init_queues` plus the final value of the global counter `i` (the init
loop leaves `i = NUM_NODES`): Free holds `NUM_NODES` uniform blocks,
Allocated is empty. -/
def initState : SimState :=
  { free := (List.range NUM_NODES).map init_node
  , alloc := []
  , ctr := (NUM_NODES : Int) }

/-- One body execution of the `allocate` thread loop for request size `req`:
skip when Free is empty, otherwise run the first-fit scan and append the
produced node (if any) to Allocated. -/
def allocate_tick (st : SimState) (req : Int) : SimState :=
  if is_empty st.free then st
  else
    match alloc_scan st.ctr req st.free with
    | (free', n?, ctr') => { free := free', alloc := st.alloc ++ n?.toList, ctr := ctr' }

/-- One body execution of the `collect` thread loop: skip when Allocated is
empty; otherwise clear the head's `nStay`, requeue it onto Free, and run
`merge_nodes`.  `none` when the merge run does not complete (no quiescent
state results from this tick). -/
def collect_tick (st : SimState) : Option SimState :=
  match st.alloc with
  | [] => some st
  | h :: rest =>
    match merge_nodes (enqueue st.free { h with nStay := 0 }) with
    | none => none
    | some free' => some { free := free', alloc := rest, ctr := st.ctr }

/-- One body execution of the `increment_times` thread loop: bump `nStay` of
every Allocated member. -/
def increment_times_tick (st : SimState) : SimState :=
  if is_empty st.alloc then st
  else { st with alloc := st.alloc.map (fun n => { n with nStay := n.nStay + 1 }) }

/-- One quiescent-to-quiescent transition: an allocator tick (the request
size is drawn from `rand() % 41 + 10`, i.e. 10..50), a completing collector
tick, or an aging tick.  The traverser is read-only and does not change the
state. -/
inductive Step : SimState → SimState → Prop
  | alloc (st : SimState) (req : Int) (h1 : 10 ≤ req) (h2 : req ≤ 50) :
      Step st (allocate_tick st req)
  | collect (st st' : SimState) (h : collect_tick st = some st') : Step st st'
  | aging (st : SimState) : Step st (increment_times_tick st)

/-- States reachable from startup through complete lock-protected ticks. -/
inductive Reachable : SimState → Prop
  | init : Reachable initState
  | step {st st' : SimState} : Reachable st → Step st st' → Reachable st'

-- sanity examples (concrete evaluation of the embedded operations)
example : initState.free.map Node.nBlocks = [1024, 1024, 1024] := by decide
example : initState.free.map Node.nBase = [0, 1023, 2047] := by decide
example :
    allocate_tick initState 20 =
      { free := [{ ptid := 0, nBase := 0, nStay := 0, nBlocks := 1004 },
                 init_node 1, init_node 2]
      , alloc := [{ ptid := 4, nBase := 984, nStay := 0, nBlocks := 20 }]
      , ctr := 4 } := by decide
example :
    merge_nodes [{ ptid := 0, nBase := 0, nStay := 0, nBlocks := 1024 },
                 { ptid := 7, nBase := 5, nStay := 0, nBlocks := 5 }] =
      some [{ ptid := 0, nBase := 0, nStay := 0, nBlocks := 1024 },
            { ptid := 7, nBase := 5, nStay := 0, nBlocks := 5 }] := by decide
example :
    merge_nodes [{ ptid := 0, nBase := 0, nStay := 0, nBlocks := 1024 },
                 { ptid := 7, nBase := 5, nStay := 0, nBlocks := 5 },
                 { ptid := 8, nBase := 9, nStay := 0, nBlocks := 1024 }] =
      some [{ ptid := 0, nBase := 0, nStay := 0, nBlocks := 1029 },
            { ptid := 8, nBase := 9, nStay := 0, nBlocks := 1024 }] := by decide
-- non-progress run: full-sized interior node, full-sized tail
example :
    merge_nodes [{ ptid := 0, nBase := 0, nStay := 0, nBlocks := 1024 },
                 { ptid := 1, nBase := 5, nStay := 0, nBlocks := 1024 },
                 { ptid := 2, nBase := 9, nStay := 0, nBlocks := 1024 }] = none := by decide
-- dangling-cursor run: the cursor node is absorbed, then the tail
example :
    merge_nodes [{ ptid := 0, nBase := 0, nStay := 0, nBlocks := 1024 },
                 { ptid := 1, nBase := 5, nStay := 0, nBlocks := 10 },
                 { ptid := 2, nBase := 9, nStay := 0, nBlocks := 10 }] = none := by decide

/-! ### Helper lemmas about sums and list shapes -/

theorem sumSizes_cons (n : Node) (q : Queue) :
    sumSizes (n :: q) = n.nBlocks + sumSizes q := by
  simp [sumSizes]

theorem sumSizes_append (a b : Queue) :
    sumSizes (a ++ b) = sumSizes a + sumSizes b := by
  simp [sumSizes]

theorem getLast?_decomp {l : Queue} {t : Node} (h : l.getLast? = some t) :
    l = l.dropLast ++ [t] := by
  induction l with
  | nil => simp at h
  | cons a l ih =>
    cases l with
    | nil =>
      simp only [List.getLast?_singleton, Option.some.injEq] at h
      subst h; rfl
    | cons b l' =>
      rw [List.getLast?_cons_cons] at h
      have h2 : (a :: b :: l').dropLast = a :: (b :: l').dropLast := rfl
      rw [h2, List.cons_append]
      exact congrArg (List.cons a) (ih h)

theorem sublist_sumSizes_le {a b : Queue} (h : a.Sublist b)
    (hpos : ∀ n ∈ b, 0 ≤ n.nBlocks) : sumSizes a ≤ sumSizes b := by
  induction h with
  | slnil => simp [sumSizes]
  | cons x h ih =>
    have h0 : (0:Int) ≤ x.nBlocks := hpos x (List.mem_cons_self _ _)
    have h1 := ih (fun n hn => hpos n (List.mem_cons_of_mem _ hn))
    rw [sumSizes_cons]; omega
  | cons₂ x h ih =>
    have h1 := ih (fun n hn => hpos n (List.mem_cons_of_mem _ hn))
    rw [sumSizes_cons, sumSizes_cons]; omega

/-! ### Specification of the coalescer loop -/

theorem merge_loop_spec (fuel : Nat) :
    ∀ (hb : Int) (rest : Queue) (hb' : Int) (rest' : Queue),
      merge_loop fuel hb rest = some (hb', rest') →
      hb' + sumSizes rest' = hb + sumSizes rest ∧ rest'.Sublist rest ∧
        rest'.length ≤ 1 ∧ (rest ≠ [] → rest'.length = 1) := by
  induction fuel with
  | zero => intro hb rest hb' rest' h; exact Option.noConfusion h
  | succ fuel ih =>
    intro hb rest hb' rest' h
    match rest with
    | [] =>
      simp only [merge_loop, Option.some.injEq, Prod.mk.injEq] at h
      obtain ⟨rfl, rfl⟩ := h
      exact ⟨by simp, List.Sublist.refl _, by simp, by simp⟩
    | [t] =>
      simp only [merge_loop, Option.some.injEq, Prod.mk.injEq] at h
      obtain ⟨rfl, rfl⟩ := h
      exact ⟨by simp, List.Sublist.refl _, by simp, fun _ => rfl⟩
    | c :: d :: rest2 =>
      rw [merge_loop] at h
      have ecs : sumSizes (c :: d :: rest2) = c.nBlocks + sumSizes (d :: rest2) :=
        sumSizes_cons _ _
      split at h
      · -- c.nBlocks < BLOCK_SIZE : the cursor node is absorbed
        split at h
        · exact Option.noConfusion h
        · rename_i t hgl
          have hdec : d :: rest2 = (d :: rest2).dropLast ++ [t] := getLast?_decomp hgl
          have hs2 : sumSizes (d :: rest2) =
              sumSizes ((d :: rest2).dropLast) + t.nBlocks := by
            conv_lhs => rw [hdec]
            rw [sumSizes_append, sumSizes_cons]; simp [sumSizes]
          split at h
          · -- tail also absorbed
            split at h
            · exact Option.noConfusion h
            · rename_i hemp
              obtain ⟨hsum, hsub, hlen, hne⟩ := ih _ _ _ _ h
              have hdne : (d :: rest2).dropLast ≠ [] := by
                intro hx; rw [hx] at hemp; exact hemp rfl
              refine ⟨by omega, ?_, hlen, fun _ => hne hdne⟩
              exact hsub.trans ((List.dropLast_sublist _).trans
                (List.sublist_cons_self _ _))
          · obtain ⟨hsum, hsub, hlen, hne⟩ := ih _ _ _ _ h
            exact ⟨by omega, hsub.trans (List.sublist_cons_self _ _), hlen,
              fun _ => hne (by simp)⟩
      · -- full-sized cursor node: the cursor does not advance
        split at h
        · exact Option.noConfusion h
        · rename_i t hgl
          have hdec : c :: d :: rest2 = (c :: d :: rest2).dropLast ++ [t] :=
            getLast?_decomp hgl
          have hs2 : sumSizes (c :: d :: rest2) =
              sumSizes ((c :: d :: rest2).dropLast) + t.nBlocks := by
            conv_lhs => rw [hdec]
            rw [sumSizes_append, sumSizes_cons]; simp [sumSizes]
          split at h
          · split at h
            · exact Option.noConfusion h
            · rename_i hemp
              obtain ⟨hsum, hsub, hlen, hne⟩ := ih _ _ _ _ h
              have hdne : (c :: d :: rest2).dropLast ≠ [] := by
                intro hx; rw [hx] at hemp; exact hemp rfl
              exact ⟨by omega, hsub.trans (List.dropLast_sublist _), hlen,
                fun _ => hne hdne⟩
          · obtain ⟨hsum, hsub, hlen, hne⟩ := ih _ _ _ _ h
            exact ⟨hsum, hsub, hlen, fun _ => hne (by simp)⟩

theorem merge_nodes_spec {q free' : Queue} (h : merge_nodes q = some free') :
    ∃ h0 rest hb' rest', q = h0 :: rest ∧
      free' = { h0 with nBlocks := hb' } :: rest' ∧
      hb' + sumSizes rest' = h0.nBlocks + sumSizes rest ∧
      rest'.Sublist rest ∧ rest'.length ≤ 1 ∧ (rest ≠ [] → rest'.length = 1) := by
  match q with
  | [] => exact Option.noConfusion h
  | h0 :: rest =>
    simp only [merge_nodes] at h
    cases hml : merge_loop (rest.length + 1) h0.nBlocks rest with
    | none => rw [hml] at h; exact Option.noConfusion h
    | some p =>
      rw [hml] at h
      simp only [Option.map_some', Option.some.injEq] at h
      obtain ⟨hsum, hsub, hlen, hne⟩ := merge_loop_spec _ _ _ _ _ hml
      exact ⟨h0, rest, p.1, p.2, rfl, h.symm, hsum, hsub, hlen, hne⟩

/-! ### Specification of the first-fit scan -/

theorem alloc_scan_none (ctr req : Int) :
    ∀ (q : Queue), (∀ n ∈ q.dropLast, n.nBlocks ≤ req) →
      alloc_scan ctr req q = (q, none, ctr) := by
  intro q
  induction q with
  | nil => intro _; rfl
  | cons c rest ih =>
    intro hall
    cases rest with
    | nil => rfl
    | cons d rest2 =>
      have hc : c.nBlocks ≤ req := hall c (List.mem_cons_self _ _)
      rw [alloc_scan, if_neg (not_lt.mpr hc),
        ih (fun n hn => hall n (List.mem_cons_of_mem _ hn))]

theorem alloc_scan_found (ctr req : Int) :
    ∀ (p : Queue) (c : Node) (suf : Queue), suf ≠ [] →
      (∀ n ∈ p, n.nBlocks ≤ req) → req < c.nBlocks →
      alloc_scan ctr req (p ++ c :: suf) =
        if 2 * req < c.nBlocks then
          (p ++ { c with nBlocks := c.nBlocks - req } :: suf,
           some { ptid := ctr + 1, nBase := (c.nBlocks - req) - req,
                  nStay := 0, nBlocks := req },
           ctr + 1)
        else (p ++ suf, some c, ctr) := by
  intro p
  induction p with
  | nil =>
    intro c suf hsuf hp hc
    cases suf with
    | nil => exact absurd rfl hsuf
    | cons d rest =>
      rw [List.nil_append, alloc_scan, if_pos hc]
      by_cases h2 : 2 * req < c.nBlocks
      · rw [if_pos h2, if_pos h2]; rfl
      · rw [if_neg h2, if_neg h2]; rfl
  | cons a p' ih =>
    intro c suf hsuf hp hc
    have ha : a.nBlocks ≤ req := hp a (List.mem_cons_self _ _)
    cases hps : p' ++ c :: suf with
    | nil => exact absurd hps (by simp)
    | cons e es =>
      rw [List.cons_append, hps, alloc_scan, if_neg (not_lt.mpr ha), ← hps,
        ih c suf hsuf (fun n hn => hp n (List.mem_cons_of_mem _ hn)) hc]
      by_cases h2 : 2 * req < c.nBlocks
      · rw [if_pos h2, if_pos h2]; rfl
      · rw [if_neg h2, if_neg h2]; rfl

theorem exists_scan_shape (req : Int) :
    ∀ (q : Queue), (∀ n ∈ q.dropLast, n.nBlocks ≤ req) ∨
      ∃ p c suf, q = p ++ c :: suf ∧ suf ≠ [] ∧
        (∀ n ∈ p, n.nBlocks ≤ req) ∧ req < c.nBlocks := by
  intro q
  induction q with
  | nil => left; intro n hn; exact absurd hn (by simp)
  | cons c rest ih =>
    cases rest with
    | nil => left; intro n hn; exact absurd hn (by simp)
    | cons d rest2 =>
      by_cases hc : req < c.nBlocks
      · right; exact ⟨[], c, d :: rest2, rfl, by simp, by simp, hc⟩
      · rcases ih with hall | ⟨p, c0, suf, heq, hsuf, hp, hc0⟩
        · left
          intro n hn
          rcases List.mem_cons.1 hn with rfl | hn'
          · exact not_lt.mp hc
          · exact hall n hn'
        · right
          refine ⟨c :: p, c0, suf, ?_, hsuf, ?_, hc0⟩
          · rw [List.cons_append, ← heq]
          · intro n hn
            rcases List.mem_cons.1 hn with rfl | hn'
            · exact not_lt.mp hc
            · exact hp n hn'

theorem allocate_tick_no_fit {st : SimState} {req : Int}
    (h : ∀ n ∈ st.free.dropLast, n.nBlocks ≤ req) : allocate_tick st req = st := by
  unfold allocate_tick
  by_cases he : is_empty st.free
  · rw [if_pos he]
  · rw [if_neg he, alloc_scan_none st.ctr req st.free h]
    simp

theorem allocate_tick_found {st : SimState} {req : Int} {p : Queue} {c : Node}
    {suf : Queue} (heq : st.free = p ++ c :: suf) (hsuf : suf ≠ [])
    (hp : ∀ n ∈ p, n.nBlocks ≤ req) (hc : req < c.nBlocks) :
    allocate_tick st req =
      if 2 * req < c.nBlocks then
        { free := p ++ { c with nBlocks := c.nBlocks - req } :: suf,
          alloc := st.alloc ++ [{ ptid := st.ctr + 1, nBase := (c.nBlocks - req) - req,
                                  nStay := 0, nBlocks := req }],
          ctr := st.ctr + 1 }
      else { free := p ++ suf, alloc := st.alloc ++ [c], ctr := st.ctr } := by
  have hne : ¬ is_empty st.free := by
    rw [heq]; cases p <;> simp [is_empty]
  unfold allocate_tick
  rw [if_neg hne, heq, alloc_scan_found st.ctr req p c suf hsuf hp hc]
  by_cases h2 : 2 * req < c.nBlocks
  · rw [if_pos h2, if_pos h2]; rfl
  · rw [if_neg h2, if_neg h2]; rfl

/-! ### The inductive invariant of reachable quiescent states -/

/-- Invariant of the engine: conservation of total size, id uniqueness and
freshness-bound, age 0 throughout Free, ages non-increasing (and nonnegative)
along Allocated, and positive sizes. -/
structure EngineInv (st : SimState) : Prop where
  conserve : sumSizes st.free + sumSizes st.alloc = (NUM_NODES : Int) * BLOCK_SIZE
  nodup : ((st.free ++ st.alloc).map Node.ptid).Nodup
  ids_le : ∀ n ∈ st.free ++ st.alloc, n.ptid ≤ st.ctr
  free_age : ∀ n ∈ st.free, n.nStay = 0
  ages_mono : st.alloc.Pairwise (fun a b => b.nStay ≤ a.nStay)
  ages_nonneg : ∀ n ∈ st.alloc, 0 ≤ n.nStay
  sizes_pos : ∀ n ∈ st.free ++ st.alloc, 0 < n.nBlocks

theorem init_inv : EngineInv initState := by
  constructor <;> decide

theorem map_ptid_bump (l : Queue) :
    (l.map (fun n => { n with nStay := n.nStay + 1 })).map Node.ptid
      = l.map Node.ptid := by
  rw [List.map_map]; rfl

theorem sumSizes_bump (l : Queue) :
    sumSizes (l.map (fun n => { n with nStay := n.nStay + 1 })) = sumSizes l := by
  unfold sumSizes
  rw [List.map_map]; rfl

theorem increment_times_tick_inv {st : SimState} (hI : EngineInv st) :
    EngineInv (increment_times_tick st) := by
  unfold increment_times_tick
  by_cases he : is_empty st.alloc
  · rw [if_pos he]; exact hI
  · rw [if_neg he]
    obtain ⟨h1, h2, h3, h4, h5, h6, h7⟩ := hI
    constructor
    · simpa [sumSizes_bump] using h1
    · simpa [map_ptid_bump] using h2
    · intro n hn
      rcases List.mem_append.1 hn with hn | hn
      · exact h3 n (List.mem_append.2 (Or.inl hn))
      · obtain ⟨m, hm, rfl⟩ := List.mem_map.1 hn
        exact h3 m (List.mem_append.2 (Or.inr hm))
    · exact h4
    · refine List.pairwise_map.2 (h5.imp ?_)
      intro a b hab
      show b.nStay + 1 ≤ a.nStay + 1
      omega
    · intro n hn
      obtain ⟨m, hm, rfl⟩ := List.mem_map.1 hn
      have := h6 m hm
      show (0:Int) ≤ m.nStay + 1
      omega
    · intro n hn
      rcases List.mem_append.1 hn with hn | hn
      · exact h7 n (List.mem_append.2 (Or.inl hn))
      · obtain ⟨m, hm, rfl⟩ := List.mem_map.1 hn
        exact h7 m (List.mem_append.2 (Or.inr hm))

theorem sumSizes_nil : sumSizes [] = 0 := rfl

theorem nodup_snoc_fresh {X Y : List Int} {a : Int} (h : (X ++ Y).Nodup)
    (ha : a ∉ X ++ Y) : (X ++ (Y ++ [a])).Nodup := by
  rw [← List.append_assoc]
  exact ((List.perm_append_singleton a (X ++ Y)).symm).nodup
    (List.nodup_cons.mpr ⟨ha, h⟩)

theorem nodup_shuffle {A B C : List Int} {a : Int}
    (h : ((A ++ a :: B) ++ C).Nodup) : ((A ++ B) ++ (C ++ [a])).Nodup := by
  have p1 : List.Perm ((A ++ a :: B) ++ C) (a :: (A ++ (B ++ C))) := by
    have e1 : (A ++ a :: B) ++ C = A ++ a :: (B ++ C) := by simp
    rw [e1]; exact List.perm_middle
  have p2 : List.Perm ((A ++ B) ++ (C ++ [a])) (a :: ((A ++ B) ++ C)) := by
    have e2 : (A ++ B) ++ (C ++ [a]) = ((A ++ B) ++ C) ++ [a] := by simp
    rw [e2]; exact List.perm_append_singleton _ _
  have h1 := p1.nodup h
  have h1' : (a :: ((A ++ B) ++ C)).Nodup := by rwa [List.append_assoc]
  exact p2.symm.nodup h1'

theorem allocate_tick_inv {st : SimState} {req : Int} (hI : EngineInv st)
    (hreq : 10 ≤ req) : EngineInv (allocate_tick st req) := by
  rcases exists_scan_shape req st.free with hall | ⟨p, c, suf, heq, hsuf, hp, hc⟩
  · rw [allocate_tick_no_fit hall]; exact hI
  · obtain ⟨h1, h2, h3, h4, h5, h6, h7⟩ := hI
    rw [heq] at h1 h2 h3 h4 h7
    have hcfree : c ∈ (p ++ c :: suf) ++ st.alloc := by simp
    have hcpos : 0 < c.nBlocks := h7 c hcfree
    rw [allocate_tick_found heq hsuf hp hc]
    by_cases h2r : 2 * req < c.nBlocks
    · rw [if_pos h2r]
      have hfresh : st.ctr + 1 ∉ ((p ++ c :: suf) ++ st.alloc).map Node.ptid := by
        intro hmem
        obtain ⟨n, hn, hid⟩ := List.mem_map.1 hmem
        have := h3 n hn
        omega
      refine ⟨?_, ?_, ?_, ?_, ?_, ?_, ?_⟩ <;> dsimp only
      · simp only [sumSizes_append, sumSizes_cons, sumSizes_nil] at h1 ⊢
        omega
      · simp only [List.map_append, List.map_cons] at h2 hfresh ⊢
        exact nodup_snoc_fresh h2 hfresh
      · intro n hn
        simp only [List.mem_append, List.mem_cons, List.not_mem_nil,
          or_false] at hn
        rcases hn with (hn | hn | hn) | hn | hn
        · have := h3 n (by simp [hn]); omega
        · rw [hn]; have := h3 c (by simp); dsimp only; omega
        · have := h3 n (by simp [hn]); omega
        · have := h3 n (by simp [hn]); omega
        · rw [hn]
      · intro n hn
        simp only [List.mem_append, List.mem_cons] at hn
        rcases hn with hn | hn | hn
        · exact h4 n (by simp [hn])
        · rw [hn]; exact h4 c (by simp)
        · exact h4 n (by simp [hn])
      · refine List.pairwise_append.2 ⟨h5, by simp, ?_⟩
        intro a ha b hb
        simp only [List.mem_cons, List.not_mem_nil, or_false] at hb
        rw [hb]
        show (0:Int) ≤ a.nStay
        exact h6 a ha
      · intro n hn
        simp only [List.mem_append, List.mem_cons, List.not_mem_nil,
          or_false] at hn
        rcases hn with hn | hn
        · exact h6 n hn
        · rw [hn]
      · intro n hn
        simp only [List.mem_append, List.mem_cons, List.not_mem_nil,
          or_false] at hn
        rcases hn with (hn | hn | hn) | hn | hn
        · exact h7 n (by simp [hn])
        · rw [hn]; dsimp only; omega
        · exact h7 n (by simp [hn])
        · exact h7 n (by simp [hn])
        · rw [hn]; dsimp only; omega
    · rw [if_neg h2r]
      have hc0 : c.nStay = 0 := h4 c (by simp)
      refine ⟨?_, ?_, ?_, ?_, ?_, ?_, ?_⟩ <;> dsimp only
      · simp only [sumSizes_append, sumSizes_cons, sumSizes_nil] at h1 ⊢
        omega
      · simp only [List.map_append, List.map_cons] at h2 ⊢
        exact nodup_shuffle h2
      · intro n hn
        simp only [List.mem_append, List.mem_cons, List.not_mem_nil,
          or_false] at hn
        rcases hn with (hn | hn) | hn | hn
        · exact h3 n (by simp [hn])
        · exact h3 n (by simp [hn])
        · exact h3 n (by simp [hn])
        · rw [hn]; exact h3 c (by simp)
      · intro n hn
        simp only [List.mem_append] at hn
        rcases hn with hn | hn
        · exact h4 n (by simp [hn])
        · exact h4 n (by simp [hn])
      · refine List.pairwise_append.2 ⟨h5, by simp, ?_⟩
        intro a ha b hb
        simp only [List.mem_cons, List.not_mem_nil, or_false] at hb
        rw [hb, hc0]
        exact h6 a ha
      · intro n hn
        simp only [List.mem_append, List.mem_cons, List.not_mem_nil,
          or_false] at hn
        rcases hn with hn | hn
        · exact h6 n hn
        · rw [hn, hc0]
      · intro n hn
        simp only [List.mem_append, List.mem_cons, List.not_mem_nil,
          or_false] at hn
        rcases hn with (hn | hn) | hn | hn
        · exact h7 n (by simp [hn])
        · exact h7 n (by simp [hn])
        · exact h7 n (by simp [hn])
        · rw [hn]; exact hcpos

theorem collect_tick_nil {st : SimState} (h : st.alloc = []) :
    collect_tick st = some st := by
  unfold collect_tick
  rw [h]

theorem collect_tick_cons {st : SimState} {hd : Node} {rest : Queue}
    (h : st.alloc = hd :: rest) :
    collect_tick st = (merge_nodes (enqueue st.free { hd with nStay := 0 })).map
      (fun f => { free := f, alloc := rest, ctr := st.ctr }) := by
  obtain ⟨fr, al, ct⟩ := st
  dsimp only at h
  subst h
  show (match merge_nodes (enqueue fr { hd with nStay := 0 }) with
    | none => (none : Option SimState)
    | some free' => some { free := free', alloc := rest, ctr := ct }) = _
  cases merge_nodes (enqueue fr { hd with nStay := 0 }) <;> rfl

theorem collect_tick_inv {st st' : SimState} (hI : EngineInv st)
    (h : collect_tick st = some st') : EngineInv st' := by
  cases halloc : st.alloc with
  | nil =>
    rw [collect_tick_nil halloc] at h
    cases h
    exact hI
  | cons hd rest =>
    rw [collect_tick_cons halloc] at h
    cases hm : merge_nodes (enqueue st.free { hd with nStay := 0 }) with
    | none => rw [hm] at h; exact Option.noConfusion h
    | some free' =>
      rw [hm] at h
      simp only [Option.map_some', Option.some.injEq] at h
      subst h
      obtain ⟨q0, qrest, hb', rest', hq, hf, hsum, hsub, hlen, hne⟩ :=
        merge_nodes_spec hm
      subst hf
      obtain ⟨h1, h2, h3, h4, h5, h6, h7⟩ := hI
      rw [halloc] at h1 h2 h3 h5 h6 h7
      have hmemq : ∀ n, n ∈ q0 :: qrest → n ∈ st.free ∨ n = { hd with nStay := 0 } := by
        intro n hn
        rw [← hq] at hn
        simp only [enqueue, List.mem_append, List.mem_cons, List.not_mem_nil,
          or_false] at hn
        exact hn
      have hszq : ∀ n, n ∈ q0 :: qrest → 0 < n.nBlocks := by
        intro n hn
        rcases hmemq n hn with hn' | hn'
        · exact h7 n (by simp [hn'])
        · rw [hn']
          show 0 < hd.nBlocks
          exact h7 hd (by simp)
      have hageq : ∀ n, n ∈ q0 :: qrest → n.nStay = 0 := by
        intro n hn
        rcases hmemq n hn with hn' | hn'
        · exact h4 n hn'
        · rw [hn']
      have hidq : ∀ n, n ∈ q0 :: qrest → n.ptid ≤ st.ctr := by
        intro n hn
        rcases hmemq n hn with hn' | hn'
        · exact h3 n (by simp [hn'])
        · rw [hn']
          show hd.ptid ≤ st.ctr
          exact h3 hd (by simp)
      have hmapq : (st.free.map Node.ptid) ++ [hd.ptid] = q0.ptid :: qrest.map Node.ptid := by
        simpa [enqueue] using congrArg (List.map Node.ptid) hq
      have hsumq : sumSizes st.free + hd.nBlocks = q0.nBlocks + sumSizes qrest := by
        have e2 := congrArg sumSizes hq
        simp only [enqueue, sumSizes_append, sumSizes_cons, sumSizes_nil] at e2
        have ehd : ({ hd with nStay := 0 } : Node).nBlocks = hd.nBlocks := rfl
        rw [ehd] at e2
        omega
      have hq0sz : 0 < q0.nBlocks := hszq q0 (List.mem_cons_self _ _)
      have hrest'le : sumSizes rest' ≤ sumSizes qrest :=
        sublist_sumSizes_le hsub
          (fun n hn => le_of_lt (hszq n (List.mem_cons_of_mem _ hn)))
      refine ⟨?_, ?_, ?_, ?_, ?_, ?_, ?_⟩ <;> dsimp only
      · -- conservation
        simp only [sumSizes_append, sumSizes_cons] at h1 ⊢
        omega
      · -- exclusive membership (no duplicate ids)
        simp only [List.map_append, List.map_cons, List.cons_append] at h2 ⊢
        have hnd_old : ((st.free.map Node.ptid ++ [hd.ptid]) ++ rest.map Node.ptid).Nodup := by
          have e : (st.free.map Node.ptid ++ [hd.ptid]) ++ rest.map Node.ptid
              = st.free.map Node.ptid ++ hd.ptid :: rest.map Node.ptid := by simp
          rw [e]
          exact h2
        rw [hmapq, List.cons_append] at hnd_old
        obtain ⟨hnotin, hnd3⟩ := List.nodup_cons.1 hnd_old
        refine List.nodup_cons.2 ⟨?_, ?_⟩
        · intro hmem
          exact hnotin (((hsub.map Node.ptid).append_right _).subset hmem)
        · exact List.Nodup.sublist ((hsub.map Node.ptid).append_right _) hnd3
      · intro n hn
        simp only [List.mem_append, List.mem_cons] at hn
        rcases hn with (hn | hn) | hn
        · rw [hn]
          show q0.ptid ≤ st.ctr
          exact hidq q0 (List.mem_cons_self _ _)
        · exact hidq n (List.mem_cons_of_mem _ (hsub.subset hn))
        · exact h3 n (by simp [hn])
      · intro n hn
        simp only [List.mem_cons] at hn
        rcases hn with hn | hn
        · rw [hn]
          show q0.nStay = 0
          exact hageq q0 (List.mem_cons_self _ _)
        · exact hageq n (List.mem_cons_of_mem _ (hsub.subset hn))
      · exact List.Pairwise.of_cons h5
      · intro n hn
        exact h6 n (List.mem_cons_of_mem _ hn)
      · intro n hn
        simp only [List.mem_append, List.mem_cons] at hn
        rcases hn with (hn | hn) | hn
        · rw [hn]
          show 0 < hb'
          omega
        · exact hszq n (List.mem_cons_of_mem _ (hsub.subset hn))
        · exact h7 n (by simp [hn])

theorem step_inv {st st' : SimState} (hI : EngineInv st) (h : Step st st') :
    EngineInv st' := by
  cases h with
  | alloc req h1 h2 => exact allocate_tick_inv hI h1
  | collect st' hc => exact collect_tick_inv hI hc
  | aging => exact increment_times_tick_inv hI

theorem reachable_inv {st : SimState} (h : Reachable st) : EngineInv st := by
  induction h with
  | init => exact init_inv
  | step hr hs ih => exact step_inv ih hs

/-! ### Claim theorems -/

/-- C1: Conservation of capacity.  In every reachable quiescent state (the
states produced by complete lock-protected executions of the allocator,
collector-with-coalesce and aging tick bodies), the sum of `nBlocks` over
Free plus the sum over Allocated equals `NUM_NODES * BLOCK_SIZE`, the total
simulated address space; since `Reachable` is closed under every `Step`
(allocate whole-block, allocate-with-split, reclaim, coalesce), each of
these operations preserves the sum. -/
theorem C1_conservation {st : SimState} (h : Reachable st) :
    sumSizes st.free + sumSizes st.alloc = (NUM_NODES : Int) * BLOCK_SIZE :=
  (reachable_inv h).conserve

theorem C1_conservation_witness :
    sumSizes initState.free + sumSizes initState.alloc
      = (NUM_NODES : Int) * BLOCK_SIZE :=
  C1_conservation Reachable.init

/-- C2: Exclusive membership.  In every reachable quiescent state the block
ids across Free and Allocated are pairwise distinct, so every live block is
a member of exactly one of the two collections: never of both (a Free member
is not an Allocated member) and never duplicated inside one; blocks leave
the configuration only by being absorbed during coalescing. -/
theorem C2_exclusive_membership {st : SimState} (h : Reachable st) :
    ((st.free ++ st.alloc).map Node.ptid).Nodup ∧
      ∀ n ∈ st.free, n ∉ st.alloc := by
  refine ⟨(reachable_inv h).nodup, ?_⟩
  intro n hf ha
  have hnd := (reachable_inv h).nodup
  rw [List.map_append] at hnd
  exact (List.nodup_append.1 hnd).2.2 (List.mem_map_of_mem Node.ptid hf)
    (List.mem_map_of_mem Node.ptid ha)

theorem C2_exclusive_membership_witness :
    ((initState.free ++ initState.alloc).map Node.ptid).Nodup ∧
      ∀ n ∈ initState.free, n ∉ initState.alloc :=
  C2_exclusive_membership Reachable.init

/-- C9: Implicit invariant: in every reachable quiescent state every block
in Free has age (`nStay`) 0 — established at initialization, re-established
by reclamation (which clears `nStay` before requeueing into Free) and never
altered by the coalescer — which is what makes the whole-block allocation
path (which performs no reset of its own) deliver an age-0 block into
Allocated. -/
theorem C9_free_age_zero {st : SimState} (h : Reachable st) :
    ∀ n ∈ st.free, n.nStay = 0 :=
  (reachable_inv h).free_age

theorem C9_free_age_zero_witness :
    (init_node 0).nStay = 0 :=
  C9_free_age_zero Reachable.init (init_node 0) (by decide)

/-- C10: Implicit edge case: whenever Free contains exactly one block, an
allocation tick leaves the state (both collections and the counter)
completely unchanged for every requested size, regardless of that block's
size — the scan loop `while (current != tail)` never examines the tail
member of Free, so a sole block is never a candidate. -/
theorem C10_singleton_free_skipped (st : SimState) (b : Node) (req : Int)
    (h : st.free = [b]) : allocate_tick st req = st := by
  obtain ⟨f, al, ct⟩ := st
  dsimp only at h
  subst h
  simp [allocate_tick, is_empty, alloc_scan]

theorem C10_singleton_free_skipped_witness :
    allocate_tick { free := [init_node 0], alloc := [], ctr := 3 } 20
      = { free := [init_node 0], alloc := [], ctr := 3 } :=
  C10_singleton_free_skipped _ (init_node 0) 20 rfl

/-- C3 counterexample: Free holds a 5-block and then a 100-block (the tail);
for request size 20 the first member with size above 20 is the 100-block, so
the claim requires it to be serviced, yet the tick leaves the state
unchanged: the scan loop never examines the tail member. -/
theorem C3_counterexample :
    (∃ n ∈ ({ free := [⟨0, 0, 0, 5⟩, ⟨1, 1023, 0, 100⟩], alloc := [], ctr := 3 }
        : SimState).free, (20:Int) < n.nBlocks) ∧
    allocate_tick
        { free := [⟨0, 0, 0, 5⟩, ⟨1, 1023, 0, 100⟩], alloc := [], ctr := 3 } 20
      = { free := [⟨0, 0, 0, 5⟩, ⟨1, 1023, 0, 100⟩], alloc := [], ctr := 3 } := by
  decide

/-- C3 (amended): first-fit selection, tail excluded: one allocation tick
services the first block among all members of Free EXCEPT the last, in
collection order, whose size exceeds the request (splitting it when its size
exceeds twice the request, else moving it whole); when no such member exists
among them — even when the tail itself would fit — the tick leaves both
collections and the counter unchanged (the request is skipped, not queued or
retried). -/
theorem C3_first_fit (st : SimState) (req : Int) :
    ((∀ n ∈ st.free.dropLast, n.nBlocks ≤ req) ∧ allocate_tick st req = st) ∨
    (∃ p c suf, st.free = p ++ c :: suf ∧ suf ≠ [] ∧
      (∀ n ∈ p, n.nBlocks ≤ req) ∧ req < c.nBlocks ∧
      allocate_tick st req =
        if 2 * req < c.nBlocks then
          { free := p ++ { c with nBlocks := c.nBlocks - req } :: suf,
            alloc := st.alloc ++ [{ ptid := st.ctr + 1,
                                    nBase := (c.nBlocks - req) - req,
                                    nStay := 0, nBlocks := req }],
            ctr := st.ctr + 1 }
        else { free := p ++ suf, alloc := st.alloc ++ [c], ctr := st.ctr }) := by
  rcases exists_scan_shape req st.free with hall | ⟨p, c, suf, heq, hsuf, hp, hc⟩
  · exact Or.inl ⟨hall, allocate_tick_no_fit hall⟩
  · exact Or.inr ⟨p, c, suf, heq, hsuf, hp, hc, allocate_tick_found heq hsuf hp hc⟩

/-- C6: Age reset on allocation: any block that an allocation tick makes a
new member of Allocated — whether relocated whole from Free or freshly
created by a split — has age exactly 0 at that moment (split-derived blocks
are created with `nStay = 0`; whole-moved blocks carry `nStay = 0` because
every Free member has age 0 in reachable states). -/
theorem C6_age_reset_on_allocation {st : SimState} (h : Reachable st)
    (req : Int) :
    ∀ n ∈ (allocate_tick st req).alloc, n ∈ st.alloc ∨ n.nStay = 0 := by
  rcases exists_scan_shape req st.free with hall | ⟨p, c, suf, heq, hsuf, hp, hc⟩
  · rw [allocate_tick_no_fit hall]; intro n hn; exact Or.inl hn
  · rw [allocate_tick_found heq hsuf hp hc]
    by_cases h2r : 2 * req < c.nBlocks
    · rw [if_pos h2r]
      intro n hn
      dsimp only at hn
      rcases List.mem_append.1 hn with hn | hn
      · exact Or.inl hn
      · simp only [List.mem_cons, List.not_mem_nil, or_false] at hn
        rw [hn]; exact Or.inr rfl
    · rw [if_neg h2r]
      intro n hn
      dsimp only at hn
      rcases List.mem_append.1 hn with hn | hn
      · exact Or.inl hn
      · simp only [List.mem_cons, List.not_mem_nil, or_false] at hn
        right
        rw [hn]
        exact (reachable_inv h).free_age c (by rw [heq]; simp)

theorem C6_age_reset_on_allocation_witness :
    (⟨4, 984, 0, 20⟩ : Node) ∈ initState.alloc ∨ (⟨4, 984, 0, 20⟩ : Node).nStay = 0 :=
  C6_age_reset_on_allocation Reachable.init 20 ⟨4, 984, 0, 20⟩ (by decide)

/-- C5 counterexample: the selected candidate has base 0 and size 100, and
request 20 triggers the split (100 > 2*20).  The claim requires the new
block's base to equal candidate.base plus the candidate's shrunk size, i.e.
0 + 80 = 80; the code computes `a_node->nBlocks - blocks` AFTER having
decremented `a_node->nBlocks`, i.e. (100 - 20) - 20 = 60. -/
theorem C5_counterexample :
    ((allocate_tick { free := [⟨0, 0, 0, 100⟩, ⟨1, 100, 0, 1024⟩],
                      alloc := [], ctr := 3 } 20).alloc.map Node.nBase = [60]) ∧
    (60 : Int) ≠ 0 + (100 - 20) := by decide

/-- C5 (amended): split postcondition: when the first-fit candidate (among
all members but the tail) has size above twice the request, the tick
decrements the candidate's size by the request (the candidate stays in
Free), and appends to Allocated one new block with the fresh id `ctr + 1`
(distinct from the id of every live block), age 0, size exactly the request,
and base equal to the candidate's shrunk size minus the request (original
size minus twice the request) — a value derived from sizes alone, not from
the candidate's base offset. -/
theorem C5_split_postcondition {st : SimState} {req : Int} {p : Queue}
    {c : Node} {suf : Queue} (h : Reachable st) (heq : st.free = p ++ c :: suf)
    (hsuf : suf ≠ []) (hp : ∀ n ∈ p, n.nBlocks ≤ req)
    (h2r : 2 * req < c.nBlocks) (hreq : 10 ≤ req) :
    allocate_tick st req =
      { free := p ++ { c with nBlocks := c.nBlocks - req } :: suf,
        alloc := st.alloc ++ [{ ptid := st.ctr + 1,
                                nBase := (c.nBlocks - req) - req,
                                nStay := 0, nBlocks := req }],
        ctr := st.ctr + 1 } ∧
    ∀ n ∈ st.free ++ st.alloc, n.ptid ≠ st.ctr + 1 := by
  have hc : req < c.nBlocks := by omega
  constructor
  · rw [allocate_tick_found heq hsuf hp hc, if_pos h2r]
  · intro n hn
    have := (reachable_inv h).ids_le n hn
    omega

theorem C5_split_postcondition_witness :
    allocate_tick initState 20 =
      { free := [] ++ { init_node 0 with nBlocks := (init_node 0).nBlocks - 20 }
                   :: [init_node 1, init_node 2],
        alloc := initState.alloc ++ [{ ptid := initState.ctr + 1,
                                       nBase := ((init_node 0).nBlocks - 20) - 20,
                                       nStay := 0, nBlocks := 20 }],
        ctr := initState.ctr + 1 } ∧
    ∀ n ∈ initState.free ++ initState.alloc, n.ptid ≠ initState.ctr + 1 :=
  @C5_split_postcondition initState 20 [] (init_node 0) [init_node 1, init_node 2]
    Reachable.init (by decide) (by decide) (by decide) (by decide) (by decide)

/-- C4 counterexample: Allocated holds blocks with ages [3, 7, 1]; the claim
requires the age-7 block to have its age reset and be relocated to Free, but
the completed reclamation tick relocates the head (age 3): afterwards the
age-7 block is still a member of Allocated. -/
theorem C4_counterexample :
    collect_tick { free := [⟨0, 0, 0, 1024⟩],
                   alloc := [⟨10, 0, 3, 20⟩, ⟨11, 20, 7, 20⟩, ⟨12, 40, 1, 20⟩],
                   ctr := 13 }
      = some { free := [⟨0, 0, 0, 1024⟩, ⟨10, 0, 0, 20⟩],
               alloc := [⟨11, 20, 7, 20⟩, ⟨12, 40, 1, 20⟩], ctr := 13 } ∧
    (∀ n ∈ ([⟨10, 0, 3, 20⟩, ⟨11, 20, 7, 20⟩, ⟨12, 40, 1, 20⟩] : Queue),
      n.nStay ≤ 7) ∧
    (⟨11, 20, 7, 20⟩ : Node) ∈
      ([⟨11, 20, 7, 20⟩, ⟨12, 40, 1, 20⟩] : Queue) := by decide

/-- C4 (amended): the reclamation tick relocates the HEAD of Allocated
(after resetting its age to 0), by position rather than by scanning for the
maximum age; on every reachable quiescent state this coincides with max-age
selection, because ages are non-increasing from head to tail (blocks enter
Allocated at the tail with age 0 and all resident ages advance together), so
the head's age is maximal.  On age arrangements that no reachable state
realizes — such as [3, 7, 1] — the head is still the block moved. -/
theorem C4_reclaim_head_max_age {st : SimState} (h : Reachable st)
    {hd : Node} {rest : Queue} (halloc : st.alloc = hd :: rest) :
    (∀ n ∈ st.alloc, n.nStay ≤ hd.nStay) ∧
    (∀ st', collect_tick st = some st' → st'.alloc = rest) := by
  constructor
  · intro n hn
    have hp := (reachable_inv h).ages_mono
    rw [halloc] at hp hn
    rcases List.mem_cons.1 hn with rfl | hn'
    · exact le_refl _
    · exact (List.pairwise_cons.1 hp).1 n hn'
  · intro st' hc
    rw [collect_tick_cons halloc] at hc
    cases hm : merge_nodes (enqueue st.free { hd with nStay := 0 }) with
    | none => rw [hm] at hc; exact Option.noConfusion hc
    | some f =>
      rw [hm] at hc
      simp only [Option.map_some', Option.some.injEq] at hc
      rw [← hc]

theorem C4_reclaim_head_max_age_witness :
    (∀ n ∈ (allocate_tick initState 20).alloc,
      n.nStay ≤ ({ ptid := 4, nBase := 984, nStay := 0, nBlocks := 20 } : Node).nStay) ∧
    (∀ st', collect_tick (allocate_tick initState 20) = some st' →
      st'.alloc = []) :=
  C4_reclaim_head_max_age
    (Reachable.step Reachable.init (Step.alloc initState 20 (by decide) (by decide)))
    (by decide)

/-- C7 counterexample: a coalescer run on the two-member Free collection
[reservoir of size 1024, fragment of size 5] completes and leaves the
size-5 member (smaller than BLOCK_SIZE) in place, its size NOT transferred
to the reservoir: the scan guard `current != tail` fails immediately
because the cursor starts at head->next, which IS the tail. -/
theorem C7_counterexample :
    merge_nodes [⟨0, 0, 0, 1024⟩, ⟨7, 1023, 0, 5⟩]
      = some [⟨0, 0, 0, 1024⟩, ⟨7, 1023, 0, 5⟩] ∧
    ∃ n ∈ ([⟨0, 0, 0, 1024⟩, ⟨7, 1023, 0, 5⟩] : Queue).drop 1,
      n.nBlocks < BLOCK_SIZE := by decide

/-- C7 (amended): coalescer postcondition for completed runs: a run that
completes on a Free collection of at least two members leaves exactly two —
the reservoir (same identity, its size grown by every absorbed fragment's
size) and one final member, an original non-head member which may itself
still be a fragment (a size below BLOCK_SIZE can survive in the final
position); total Free capacity is exactly preserved, hence never decreased,
and with positive input sizes every remaining size is positive, so no size
ever becomes negative. -/
theorem C7_coalescer_postcondition {q r : Queue} (hlen : 2 ≤ q.length)
    (hpos : ∀ n ∈ q, 0 < n.nBlocks) (hm : merge_nodes q = some r) :
    r.length = 2 ∧ sumSizes r = sumSizes q ∧
      r.head?.map Node.ptid = q.head?.map Node.ptid ∧
      (∀ n ∈ r.drop 1, n ∈ q.drop 1) ∧ (∀ n ∈ r, 0 < n.nBlocks) := by
  obtain ⟨h0, rest, hb', rest', hq, hf, hsum, hsub, hl, hne⟩ := merge_nodes_spec hm
  subst hq hf
  have hrne : rest ≠ [] := by
    intro hx
    rw [hx] at hlen
    simp at hlen
  have hr1 : rest'.length = 1 := hne hrne
  have hh0 : 0 < h0.nBlocks := hpos h0 (by simp)
  have hle : sumSizes rest' ≤ sumSizes rest :=
    sublist_sumSizes_le hsub
      (fun m hm' => le_of_lt (hpos m (List.mem_cons_of_mem _ hm')))
  refine ⟨?_, ?_, ?_, ?_, ?_⟩
  · simp [hr1]
  · rw [sumSizes_cons, sumSizes_cons]
    show hb' + sumSizes rest' = h0.nBlocks + sumSizes rest
    omega
  · simp
  · intro n hn
    simp only [List.drop_one, List.tail_cons] at hn ⊢
    exact hsub.subset hn
  · intro n hn
    rcases List.mem_cons.1 hn with rfl | hn'
    · show 0 < hb'
      omega
    · exact hpos n (List.mem_cons_of_mem _ (hsub.subset hn'))

theorem C7_coalescer_postcondition_witness :
    ([⟨0, 0, 0, 1124⟩, ⟨2, 2047, 0, 1024⟩] : Queue).length = 2 ∧
    sumSizes [⟨0, 0, 0, 1124⟩, ⟨2, 2047, 0, 1024⟩]
      = sumSizes [⟨0, 0, 0, 1024⟩, ⟨1, 1023, 0, 100⟩, ⟨2, 2047, 0, 1024⟩] ∧
    ([⟨0, 0, 0, 1124⟩, ⟨2, 2047, 0, 1024⟩] : Queue).head?.map Node.ptid
      = ([⟨0, 0, 0, 1024⟩, ⟨1, 1023, 0, 100⟩, ⟨2, 2047, 0, 1024⟩]
          : Queue).head?.map Node.ptid ∧
    (∀ n ∈ ([⟨0, 0, 0, 1124⟩, ⟨2, 2047, 0, 1024⟩] : Queue).drop 1,
      n ∈ ([⟨0, 0, 0, 1024⟩, ⟨1, 1023, 0, 100⟩, ⟨2, 2047, 0, 1024⟩]
        : Queue).drop 1) ∧
    (∀ n ∈ ([⟨0, 0, 0, 1124⟩, ⟨2, 2047, 0, 1024⟩] : Queue), 0 < n.nBlocks) :=
  C7_coalescer_postcondition (by decide) (by decide) (by decide)

/-- C8: the claimed IntegrityError does not exist: `dequeue` and `requeue`
contain no membership check and no failure path of any kind.  Evaluated at a
block that is NOT a member of the source collection, `requeue` returns
normally and unconditionally appends the foreign block to the target
collection, so the collections do not both remain unchanged and nothing is
signalled; the interior relink writes through the foreign block's stale
neighbor pointers (the source queue's own chain is what remains). -/
theorem C8_no_integrity_error :
    requeue [⟨1, 0, 0, 20⟩] [⟨0, 0, 0, 1024⟩] ⟨9, 0, 0, 7⟩
      = ([⟨1, 0, 0, 20⟩, ⟨9, 0, 0, 7⟩], [⟨0, 0, 0, 1024⟩]) ∧
    ([⟨1, 0, 0, 20⟩, ⟨9, 0, 0, 7⟩] : Queue) ≠ [⟨1, 0, 0, 20⟩] := by decide
